import Mathlib

/-! Shallow embedding of the commit-graph layout engine of branch_monkey.
Embedded here, definition by definition from the source:
the lane assignment and edge routing of `drawCommitTree` and the log-line
parsing of the `/api/commit-tree` endpoint (src/fastapi_server.py), the
column assignment `GitGraph._assign_columns`, node construction
`GitGraph.build_graph` and lookup `GitGraph.get_node_by_sha`
(src/branch_monkey/core/graph.py), and the position assignment
`HorizontalGitGraph._assign_positions`
(src/branch_monkey/core/graph_horizontal.py). -/

/-- One commit record as served by the `/api/commit-tree` endpoint and consumed
by `drawCommitTree` in src/fastapi_server.py. The payload fields that no
algorithm inspects (fullSha, message, author, age, timestamp) are carried as
opaque strings; the derived `color` of `drawCommitTree` is omitted because it
is a pure function of `column` and feeds back into nothing. -/
structure Commit where
  sha : String
  fullSha : String := ""
  message : String := ""
  author : String := ""
  age : String := ""
  timestamp : String := ""
  parents : List String := []
  branches : List String := []
  is_head : Bool := false
deriving Repr, DecidableEq, Inhabited

namespace DrawCommitTree

/-- JS `commits.forEach((commit, i) => { commitMap[commit.sha] = i; })`:
the accumulator after traversing the rest of the list starting at index `i`;
a later occurrence of the same sha overwrites an earlier one. -/
def commitMapAux (s : String) (i : Nat) (acc : Option Nat) : List Commit → Option Nat
  | [] => acc
  | c :: rest => commitMapAux s (i + 1) (if c.sha = s then some i else acc) rest

/-- `commitMap[sha]` of `drawCommitTree`: the index recorded for `sha`,
`none` when the sha never occurs (JS `undefined`). -/
def commitMap (commits : List Commit) (s : String) : Option Nat :=
  commitMapAux s 0 none commits

/-- State threaded through the first pass of `drawCommitTree`:
`branchToColumn` (initialised with main and master bound to column 0),
`nextColumn` (initialised to 1), and the per-commit `column` fields as a list
parallel to `commits` (`none` is JS `undefined`). -/
structure Pass1State where
  branchToColumn : List (String × Nat)
  nextColumn : Nat
  cols : List (Option Nat)
deriving Repr, DecidableEq

/-- Body of the first `commits.forEach` of `drawCommitTree`: a commit with
branch labels takes the column already bound to its first label, or binds
that label to `nextColumn` and takes it. -/
def pass1Step (st : Pass1State) (i : Nat) (c : Commit) : Pass1State :=
  if c.branches.isEmpty then st
  else
    match st.branchToColumn.lookup (c.branches.headD "") with
    | some col => { st with cols := st.cols.set i (some col) }
    | none =>
        { branchToColumn := st.branchToColumn ++ [(c.branches.headD "", st.nextColumn)],
          nextColumn := st.nextColumn + 1,
          cols := st.cols.set i (some st.nextColumn) }

/-- The indexed `forEach` loop of the first pass, from index `i` on. -/
def pass1Go (st : Pass1State) (i : Nat) : List Commit → Pass1State
  | [] => st
  | c :: rest => pass1Go (pass1Step st i c) (i + 1) rest

/-- First pass of `drawCommitTree`: only commits with branch labels receive
columns; main and master are pre-bound to column 0. -/
def pass1 (commits : List Commit) : Pass1State :=
  pass1Go
    { branchToColumn := [("main", 0), ("master", 0)], nextColumn := 1,
      cols := List.replicate commits.length none } 0 commits

/-- Body of the inner `commit.parents.forEach` of the second pass: a resolvable
parent that does not yet have a column inherits `col`; an unresolvable parent
(`commitMap` misses) is skipped. -/
def propagateStep (commits : List Commit) (col : Nat) (cols : List (Option Nat))
    (p : String) : List (Option Nat) :=
  match commitMap commits p with
  | none => cols
  | some pIdx => if cols.getD pIdx none = none then cols.set pIdx (some col) else cols

/-- Body of the second `commits.forEach` of `drawCommitTree`: a commit that
already has a column and has parents propagates its column to each
still-unassigned parent. -/
def pass2Step (commits : List Commit) (cols : List (Option Nat)) (i : Nat)
    (c : Commit) : List (Option Nat) :=
  match cols.getD i none with
  | none => cols
  | some col =>
      if c.parents.isEmpty then cols
      else c.parents.foldl (propagateStep commits col) cols

/-- The indexed `forEach` loop of the second pass, from index `i` on. -/
def pass2Go (commits : List Commit) (cols : List (Option Nat)) (i : Nat) :
    List Commit → List (Option Nat)
  | [] => cols
  | c :: rest => pass2Go commits (pass2Step commits cols i c) (i + 1) rest

/-- Second pass of `drawCommitTree`: propagate columns backwards to ancestors,
first writer wins. -/
def pass2 (commits : List Commit) (cols : List (Option Nat)) : List (Option Nat) :=
  pass2Go commits cols 0 commits

/-- Third pass of `drawCommitTree`: any commit still without a column defaults
to column 0. -/
def pass3 (cols : List (Option Nat)) : List Nat := cols.map (fun c => c.getD 0)

/-- The complete column assignment of `drawCommitTree` (its three passes),
one column per commit, parallel to the input list. -/
def assignColumns (commits : List Commit) : List Nat :=
  pass3 (pass2 commits (pass1 commits).cols)

/-- `startX` of `drawCommitTree`. -/
def startX : Int := 60

/-- `startY` of `drawCommitTree`. -/
def startY : Int := 30

/-- `columnSpacing` of `drawCommitTree`. -/
def columnSpacing : Int := 50

/-- `verticalSpacing` of `drawCommitTree`. -/
def verticalSpacing : Int := 60

/-- `startX + commit.column * columnSpacing`. -/
def xCoord (column : Nat) : Int := startX + (column : Int) * columnSpacing

/-- `startY + i * verticalSpacing`. -/
def yCoord (i : Nat) : Int := startY + (i : Int) * verticalSpacing

/-- One entry of the `commitPositions` array of `drawCommitTree`. -/
structure Position where
  sha : String
  x : Int
  y : Int
deriving Repr, DecidableEq, Inhabited

/-- The `commits.map((commit, i) => ...)` that builds `commitPositions`,
from index `i` on. -/
def commitPositionsGo (cols : List Nat) (i : Nat) : List Commit → List Position
  | [] => []
  | c :: rest =>
      { sha := c.sha, x := xCoord (cols.getD i 0), y := yCoord i } ::
        commitPositionsGo cols (i + 1) rest

/-- The `commitPositions` array of `drawCommitTree`. -/
def commitPositions (commits : List Commit) : List Position :=
  commitPositionsGo (assignColumns commits) 0 commits

/-- How a parent edge is drawn: a bezier (curved) when the two x coordinates
differ by more than 5 pixels, a straight line otherwise. -/
inductive RoutingKind where
  | straight : RoutingKind
  | curved : RoutingKind
deriving Repr, DecidableEq

/-- An edge of the drawn layout, from a commit down to one of its parents. -/
structure LayoutEdge where
  fromSha : String
  toSha : String
  fromLane : Nat
  toLane : Nat
  routing : RoutingKind
deriving Repr, DecidableEq

/-- The edge the line-drawing loop of `drawCommitTree` produces for parent `p`
of the commit at index `i`, `none` when `commitMap` cannot resolve `p`
(the JS loop draws nothing then). -/
def edgeFor (commits : List Commit) (cols : List Nat) (i : Nat) (c : Commit)
    (p : String) : Option LayoutEdge :=
  match commitMap commits p with
  | none => none
  | some pIdx =>
      some { fromSha := c.sha, toSha := p,
             fromLane := cols.getD i 0, toLane := cols.getD pIdx 0,
             routing :=
               if (xCoord (cols.getD i 0) - xCoord (cols.getD pIdx 0)).natAbs > 5
               then RoutingKind.curved else RoutingKind.straight }

/-- The line-drawing `commitPositions.forEach` of `drawCommitTree`, from
index `i` on, collecting the edges it draws. -/
def edgesGo (commits : List Commit) (cols : List Nat) (i : Nat) :
    List Commit → List LayoutEdge
  | [] => []
  | c :: rest =>
      c.parents.filterMap (edgeFor commits cols i c) ++ edgesGo commits cols (i + 1) rest

/-- All parent edges drawn by `drawCommitTree`, in drawing order. -/
def edges (commits : List Commit) : List LayoutEdge :=
  edgesGo commits (assignColumns commits) 0 commits

/-- The routing of the edge from commit `f` to parent `t`, looked up among the
drawn edges. -/
def edgeRouting (commits : List Commit) (f t : String) : Option RoutingKind :=
  ((edges commits).find? (fun e => e.fromSha = f && e.toSha = t)).map (fun e => e.routing)

/-- Drop the parent ids of a commit that do not resolve inside the window
`commits` — the references the drawing and propagation loops skip. -/
def pruneDangling (commits : List Commit) (c : Commit) : Commit :=
  { c with parents := c.parents.filter (fun p => (commitMap commits p).isSome) }

end DrawCommitTree

/-- One commit node of `GitGraph` (src/branch_monkey/core/graph.py), the
dataclass `CommitNode` there. The datetime `timestamp` and the rendering-only
fields are carried as opaque strings or dropped; `column` is kept outside the
node, as a list parallel to the node list (initially 0 everywhere, the
dataclass default). -/
structure CommitNode where
  sha : String
  short_sha : String := ""
  message : String := ""
  author : String := ""
  parents : List String := []
  branches : List String := []
  tags : List String := []
  is_head : Bool := false
  is_merge : Bool := false
deriving Repr, DecidableEq, Inhabited

namespace GitGraph

/-- Python `node_map = {node.sha: node for node in nodes}` as an index lookup:
the accumulator after traversing the rest of the list starting at index `i`;
a later node with the same sha overwrites an earlier one. -/
def nodeIndexAux (s : String) (i : Nat) (acc : Option Nat) : List CommitNode → Option Nat
  | [] => acc
  | n :: rest => nodeIndexAux s (i + 1) (if n.sha = s then some i else acc) rest

/-- The index of the node `node_map[sha]` refers to, `none` when absent. -/
def nodeIndex (nodes : List CommitNode) (s : String) : Option Nat :=
  nodeIndexAux s 0 none nodes

/-- The `for branch in node.branches` search of `_assign_columns`: the column
of the first branch already present in `branch_columns`, `none` when no
branch of the node is bound yet. -/
def findBoundColumn (bc : List (String × Nat)) : List String → Option Nat
  | [] => none
  | b :: rest =>
      match bc.lookup b with
      | some col => some col
      | none => findBoundColumn bc rest

/-- State threaded through `_assign_columns`: `branch_columns`, `next_column`
(initially 0), and the per-node `column` fields (initially all 0, the
dataclass default). -/
structure AssignState where
  branch_columns : List (String × Nat)
  next_column : Nat
  cols : List Nat
deriving Repr, DecidableEq

/-- One iteration of the `for node in nodes` loop of
`GitGraph._assign_columns`: a labelled node takes the column of its first
already-bound branch, or a fresh column bound to all its branches; an
unlabelled node inherits the current column of its first parent (0 when the
parent is absent or there is none). In the fresh-column case none of the
node's branches is bound yet, so the `branch_columns[branch] = next_column`
assignments are plain insertions. -/
def assignStep (nodes : List CommitNode) (st : AssignState) (i : Nat)
    (n : CommitNode) : AssignState :=
  if n.branches.isEmpty then
    match n.parents with
    | [] => { st with cols := st.cols.set i 0 }
    | p :: _ =>
        match nodeIndex nodes p with
        | some j => { st with cols := st.cols.set i (st.cols.getD j 0) }
        | none => { st with cols := st.cols.set i 0 }
  else
    match findBoundColumn st.branch_columns n.branches with
    | some col => { st with cols := st.cols.set i col }
    | none =>
        { branch_columns :=
            st.branch_columns ++ n.branches.map (fun b => (b, st.next_column)),
          next_column := st.next_column + 1,
          cols := st.cols.set i st.next_column }

/-- The `for node in nodes` loop of `_assign_columns`, from index `i` on. -/
def assignGo (nodes : List CommitNode) (st : AssignState) (i : Nat) :
    List CommitNode → AssignState
  | [] => st
  | n :: rest => assignGo nodes (assignStep nodes st i n) (i + 1) rest

/-- `GitGraph._assign_columns`: the column assigned to each node, as a list
parallel to the input list. -/
def assign_columns (nodes : List CommitNode) : List Nat :=
  (assignGo nodes
    { branch_columns := [], next_column := 0,
      cols := List.replicate nodes.length 0 } 0 nodes).cols

/-- The data `GitGraph.build_graph` reads from one git commit of the window
(`repo.iter_commits` yields them newest first). -/
structure RevRecord where
  sha : String
  parents : List String := []
  message : String := ""
  author : String := ""
deriving Repr, DecidableEq, Inhabited

/-- The node-construction loop of `GitGraph.build_graph`: one `CommitNode` per
record, in window order, with branches and tags attached by inverting the
tip maps (`branch_commits` and `tag_commits`, in their iteration order) and
`is_head` set by direct sha comparison with the optional head
(`head_sha = None` marks nothing). The subsequent `_assign_columns` call is
embedded separately above. -/
def build_graph (records : List RevRecord) (branchTips tagTips : List (String × String))
    (headSha : Option String) : List CommitNode :=
  records.map fun r =>
    { sha := r.sha, short_sha := r.sha.take 7,
      message := r.message, author := r.author,
      parents := r.parents,
      branches := (branchTips.filter (fun t => t.2 = r.sha)).map (fun t => t.1),
      tags := (tagTips.filter (fun t => t.2 = r.sha)).map (fun t => t.1),
      is_head := headSha = some r.sha,
      is_merge := r.parents.length > 1 }

/-- The match test of `GitGraph.get_node_by_sha`:
`node.sha.startswith(sha) or node.short_sha == sha`. -/
def shaMatches (sha : String) (node : CommitNode) : Bool :=
  sha.isPrefixOf node.sha || node.short_sha == sha

/-- `GitGraph.get_node_by_sha`: the first node whose full sha starts with the
given string or whose short sha equals it, `None` when no node matches. -/
def get_node_by_sha (nodes : List CommitNode) (sha : String) : Option CommitNode :=
  nodes.find? (shaMatches sha)

end GitGraph

/-- One commit node of `HorizontalGitGraph`
(src/branch_monkey/core/graph_horizontal.py), restricted to the fields its
`_assign_positions` reads: the sha, the timestamp (an abstract instant,
modelled as a natural number since only its ordering is used) and the branch
labels. `row` and `col` default to 0 in the dataclass. -/
structure HNode where
  sha : String
  timestamp : Nat
  branches : List String := []
deriving Repr, DecidableEq, Inhabited

namespace HorizontalGitGraph

/-- Code-point comparison of two strings as char lists, the order Python uses
to compare `str` keys in `sorted`. -/
def strLeB : List Char → List Char → Bool
  | [], _ => true
  | _ :: _, [] => false
  | a :: as, b :: bs =>
      if a.toNat < b.toNat then true
      else if b.toNat < a.toNat then false
      else strLeB as bs

/-- The first component of the sort key of `_assign_positions`:
`b not in ['main', 'master']`. -/
def notMainKey (b : String) : Bool := !(b == "main" || b == "master")

/-- Comparison of two branch names by the sort key
`(b not in ['main', 'master'], b)`: main and master first, then
lexicographically. -/
def branchKeyLe (a b : String) : Bool :=
  if notMainKey a = notMainKey b then strLeB a.data b.data else notMainKey b

/-- `sorted(branches.keys(), key=...)` of `_assign_positions` (a stable
ascending sort, like Python's). -/
def sortedBranches (branchNames : List String) : List String :=
  List.insertionSort (fun a b => branchKeyLe a b = true) branchNames

/-- `row_assignments.get(name, 0)`: the position of `name` among the sorted
branch names, 0 when absent. -/
def rowAssignment (branchNames : List String) (name : String) : Nat :=
  ((sortedBranches branchNames).findIdx? (fun x => x == name)).getD 0

/-- `all_commits.sort(key=lambda n: n.timestamp)` of `_assign_positions`:
a stable ascending sort of the nodes by timestamp. -/
def sortedCommits (nodes : List HNode) : List HNode :=
  List.insertionSort (fun a b => a.timestamp ≤ b.timestamp) nodes

/-- The `for col, node in enumerate(all_commits)` loop from counter `i` on,
recording which column each sha receives. -/
def colsGo (i : Nat) : List HNode → List (String × Nat)
  | [] => []
  | n :: rest => (n.sha, i) :: colsGo (i + 1) rest

/-- The column part of `HorizontalGitGraph._assign_positions`: nodes are
sorted by timestamp (oldest first) and the column is the position in that
sorted order, not in the input order. -/
def assign_positions_cols (nodes : List HNode) : List (String × Nat) :=
  colsGo 0 (sortedCommits nodes)

/-- The row part of `_assign_positions` for one node: a labelled node sits on
the row of its first branch label; an unlabelled node keeps the dataclass
default row 0. -/
def assign_positions_row (branchNames : List String) (n : HNode) : Nat :=
  if n.branches.isEmpty then 0
  else rowAssignment branchNames (n.branches.headD "")

end HorizontalGitGraph

namespace CommitTreeEndpoint

/-- Python `line.split(sep, maxsplit)` for a one-character separator, over the
char list of the line: at most `maxsplit` splits, the remainder (separators
included) forming the last field. -/
def splitAux (sep : Char) : List Char → Nat → List Char → List String
  | [], _, acc => [String.mk acc.reverse]
  | c :: rest, n, acc =>
      if c = sep then
        match n with
        | 0 => splitAux sep rest 0 (c :: acc)
        | m + 1 => String.mk acc.reverse :: splitAux sep rest m []
      else splitAux sep rest n (c :: acc)

/-- `s.split(sep, maxsplit)`. -/
def pySplit (s : String) (sep : Char) (maxsplit : Nat) : List String :=
  splitAux sep s.data maxsplit []

/-- Python `s.split()` with no argument: split on whitespace runs, dropping
empty fields. The git `%p` field separates parent hashes with single
spaces. -/
def splitWsAux : List Char → List Char → List String
  | [], acc => if acc.isEmpty then [] else [String.mk acc.reverse]
  | c :: rest, acc =>
      if c = ' ' then
        if acc.isEmpty then splitWsAux rest []
        else String.mk acc.reverse :: splitWsAux rest []
      else splitWsAux rest (c :: acc)

/-- `s.split()`. -/
def pySplitWs (s : String) : List String := splitWsAux s.data []

/-- `[p[:7] for p in parents.split()] if parents else []` of
`get_commit_tree`. -/
def parseParents (s : String) : List String :=
  if s = "" then [] else (pySplitWs s).map (fun p => p.take 7)

/-- One iteration of the commit-building loop of `get_commit_tree`
(src/fastapi_server.py): an empty line is skipped (`if not line: continue`),
the line is split on pipes at most 6 times, and only a line with at least 7
fields yields a record (`if len(parts) >= 7`); a shorter line is skipped
silently. Branch labels come from the `sha_to_branches` tip map, given here
as an ordered name-to-sha list. -/
def parseLogLine (tips : List (String × String)) (currentSha : String)
    (line : String) : Option Commit :=
  if line = "" then none
  else
    let parts := pySplit line '|' 6
    if parts.length ≥ 7 then
      some { sha := parts.getD 1 "", fullSha := parts.getD 0 "",
             message := parts.getD 3 "", author := parts.getD 4 "",
             age := parts.getD 5 "", timestamp := parts.getD 6 "",
             parents := parseParents (parts.getD 2 ""),
             branches := (tips.filter (fun t => t.2 = parts.getD 1 "")).map (fun t => t.1),
             is_head := parts.getD 1 "" == currentSha }
    else none

/-- The outcomes the spec's error taxonomy names for the Graph Builder:
a built commit list, or rejection of malformed input. -/
inductive BuildResult where
  | ok : List Commit → BuildResult
  | malformedInput : BuildResult
deriving Repr, DecidableEq

/-- The commit-list construction of the `/api/commit-tree` endpoint
`get_commit_tree`: each log line is parsed by `parseLogLine`; no code path in
the loop raises, so the build always returns `ok`. -/
def get_commit_tree (logLines : List String) (tips : List (String × String))
    (currentSha : String) : BuildResult :=
  BuildResult.ok (logLines.filterMap (parseLogLine tips currentSha))

end CommitTreeEndpoint

/-- The branch scenario of the spec, as the `/api/commit-tree` endpoint would
serve it: window `[C4, C3, C2, C1]` newest first, branch tips
main ↦ C3 and feature ↦ C4 attached at the tips. -/
def branchScenario : List Commit :=
  [{ sha := "C4", parents := ["C2"], branches := ["feature"] },
   { sha := "C3", parents := ["C2"], branches := ["main"] },
   { sha := "C2", parents := ["C1"], branches := [] },
   { sha := "C1", parents := [], branches := [] }]

/-- Two nodes whose second node carries the labels dev and feature, feature
already bound by the first node. -/
def pyTwoLabels : List CommitNode :=
  [{ sha := "A", branches := ["feature"] },
   { sha := "B", branches := ["dev", "feature"] }]

/-- The same two nodes except for the second label of the second node. -/
def pyTwoLabelsAlt : List CommitNode :=
  [{ sha := "A", branches := ["feature"] },
   { sha := "B", branches := ["dev", "other"] }]

/-- A window in which a feature tip precedes the main tip. -/
def pyMainAfterFeature : List CommitNode :=
  [{ sha := "A", branches := ["feature"] },
   { sha := "M", branches := ["main"] }]

/-- Three nodes whose timestamps disagree with their list order. -/
def hThree : List HNode :=
  [{ sha := "X", timestamp := 10 }, { sha := "Y", timestamp := 20 },
   { sha := "Z", timestamp := 15 }]

/-- A three-commit linear chain, newest first, labelled only at the tip. -/
def chainThree : List Commit :=
  [{ sha := "c0", parents := ["c1"], branches := ["feature"] },
   { sha := "c1", parents := ["c2"], branches := [] },
   { sha := "c2", parents := [], branches := [] }]

/-- A window with a dangling parent: the parent `gone` of `top` is outside
the window. -/
def danglingWindow : List Commit :=
  [{ sha := "top", parents := ["gone"], branches := ["main"] },
   { sha := "base", parents := [], branches := [] }]

/-- The edge `drawCommitTree` draws from C4 to its parent C2 in the branch
scenario: both sit on lane 1, so the line is straight. -/
def edgeC4C2 : DrawCommitTree.LayoutEdge :=
  { fromSha := "C4", toSha := "C2", fromLane := 1, toLane := 1,
    routing := DrawCommitTree.RoutingKind.straight }

/-- A two-revision window, newest first, for exercising head marking. -/
def headRecords : List GitGraph.RevRecord :=
  [{ sha := "bbbbbbbbbb", parents := ["aaaaaaaaaa"] },
   { sha := "aaaaaaaaaa", parents := [] }]

/-- Two nodes for exercising `get_node_by_sha`. -/
def lookupNodes : List CommitNode :=
  [{ sha := "aaaa111", short_sha := "aaaa111" },
   { sha := "bbbb222", short_sha := "bbbb222" }]

section ListHelpers

/-- `List.getD` after `List.set` at a different index. -/
theorem getD_set_ne {α : Type} (l : List α) {i j : Nat} (v d : α) (h : i ≠ j) :
    (l.set i v).getD j d = l.getD j d := by
  simp [List.getD_eq_getElem?_getD, List.getElem?_set_ne h]

/-- `List.getD` after `List.set` at the same, in-bounds index. -/
theorem getD_set_self {α : Type} (l : List α) {i : Nat} (v d : α) (h : i < l.length) :
    (l.set i v).getD i d = v := by
  simp [List.getD_eq_getElem?_getD, List.getElem?_set_self, h]

/-- `List.getD` through a `List.map` that sends the default to the default. -/
theorem getD_map_of_default {α β : Type} (f : α → β) (l : List α) (j : Nat)
    (dα : α) (dβ : β) (h : j < l.length) :
    (l.map f).getD j dβ = f (l.getD j dα) := by
  induction l generalizing j with
  | nil => simp at h
  | cons a t ih =>
    cases j with
    | zero => simp [List.getD]
    | succ k =>
      simp only [List.map_cons]
      have hk : k < t.length := by simpa using h
      simpa [List.getD_cons_succ] using ih k hk

end ListHelpers

section ListHelpers2

/-- A key found in the first part of an appended association list is found in
the whole. -/
theorem lookup_append_of_some {α β : Type} [BEq α] (l1 l2 : List (α × β)) (k : α) (v : β)
    (h : l1.lookup k = some v) : (l1 ++ l2).lookup k = some v := by
  induction l1 with
  | nil => simp [List.lookup] at h
  | cons a t ih =>
    simp only [List.cons_append, List.lookup] at h ⊢
    rcases h1 : (k == a.1) with _ | _
    · simp [h1] at h ⊢
      exact ih h
    · simp [h1] at h ⊢
      exact h

end ListHelpers2

namespace DrawCommitTree

/-- One step of the first pass does not change the number of columns. -/
theorem pass1Step_cols_length (st : Pass1State) (i : Nat) (c : Commit) :
    (pass1Step st i c).cols.length = st.cols.length := by
  unfold pass1Step
  split
  · rfl
  · split <;> simp

/-- The first pass does not change the number of columns. -/
theorem pass1Go_cols_length (l : List Commit) : ∀ (st : Pass1State) (i : Nat),
    (pass1Go st i l).cols.length = st.cols.length := by
  induction l with
  | nil => intro st i; rfl
  | cons c rest ih =>
    intro st i
    show (pass1Go (pass1Step st i c) (i + 1) rest).cols.length = _
    rw [ih, pass1Step_cols_length]

/-- Entries below the running index are untouched by the rest of the first
pass: each step writes only its own index. -/
theorem pass1Go_getD_lt (l : List Commit) : ∀ (st : Pass1State) (i j : Nat), j < i →
    (pass1Go st i l).cols.getD j none = st.cols.getD j none := by
  induction l with
  | nil => intro st i j _; rfl
  | cons c rest ih =>
    intro st i j h
    show (pass1Go (pass1Step st i c) (i + 1) rest).cols.getD j none = _
    rw [ih _ _ _ (Nat.lt_succ_of_lt h)]
    unfold pass1Step
    split
    · rfl
    · split <;> exact getD_set_ne _ _ _ (Nat.ne_of_gt h)

/-- If every commit the loop passes at position `j` is unlabelled, the column
entry at `j` stays what it was. -/
theorem pass1Go_getD_branchless (l : List Commit) : ∀ (st : Pass1State) (i j : Nat),
    (∀ k, k < l.length → i + k = j → (l.getD k default).branches = []) →
    (pass1Go st i l).cols.getD j none = st.cols.getD j none := by
  induction l with
  | nil => intro st i j _; rfl
  | cons c rest ih =>
    intro st i j hbr
    show (pass1Go (pass1Step st i c) (i + 1) rest).cols.getD j none = _
    rw [ih _ _ _ ?hrest]
    case hrest =>
      intro k hk hik
      have := hbr (k + 1) (by simpa using Nat.succ_lt_succ hk) (by omega)
      simpa using this
    by_cases hij : i = j
    · have hc : c.branches = [] := by
        have := hbr 0 (by simp) (by omega)
        simpa using this
      unfold pass1Step
      simp [hc]
    · unfold pass1Step
      split
      · rfl
      · split <;> exact getD_set_ne _ _ _ hij

/-- One step of the first pass preserves the binding of main to column 0. -/
theorem pass1Step_lookup_main (st : Pass1State) (i : Nat) (c : Commit)
    (h : st.branchToColumn.lookup "main" = some 0) :
    (pass1Step st i c).branchToColumn.lookup "main" = some 0 := by
  unfold pass1Step
  split
  · exact h
  · split
    · exact h
    · exact lookup_append_of_some _ _ _ _ h

/-- The first pass preserves the binding of main to column 0. -/
theorem pass1Go_lookup_main (l : List Commit) : ∀ (st : Pass1State) (i : Nat),
    st.branchToColumn.lookup "main" = some 0 →
    (pass1Go st i l).branchToColumn.lookup "main" = some 0 := by
  induction l with
  | nil => intro st i h; exact h
  | cons c rest ih =>
    intro st i h
    exact ih _ _ (pass1Step_lookup_main st i c h)

/-- A commit whose first branch label is main receives column 0 from the
first pass. -/
theorem pass1Go_main_col (l : List Commit) : ∀ (st : Pass1State) (i j k : Nat),
    st.branchToColumn.lookup "main" = some 0 →
    j < st.cols.length →
    k < l.length → i + k = j →
    (l.getD k default).branches.head? = some "main" →
    (pass1Go st i l).cols.getD j none = some 0 := by
  induction l with
  | nil => intro st i j k _ _ hk _ _; simp at hk
  | cons c rest ih =>
    intro st i j k hmain hj hk hik hhead
    cases k with
    | zero =>
      have hij : i = j := by omega
      subst hij
      have hc : c.branches.head? = some "main" := by simpa using hhead
      show (pass1Go (pass1Step st i c) (i + 1) rest).cols.getD i none = some 0
      rw [pass1Go_getD_lt rest _ _ _ (Nat.lt_succ_self i)]
      cases hb : c.branches with
      | nil => rw [hb] at hc; simp at hc
      | cons x xs =>
        have hx : x = "main" := by rw [hb] at hc; simpa using hc
        unfold pass1Step
        simp only [hb, hx, List.isEmpty_cons, List.headD_cons, hmain, Bool.false_eq_true,
          if_false]
        exact getD_set_self _ _ _ hj
    | succ k0 =>
      show (pass1Go (pass1Step st i c) (i + 1) rest).cols.getD j none = some 0
      refine ih _ _ _ k0 (pass1Step_lookup_main st i c hmain) ?_ (by simpa using hk)
        (by omega) (by simpa using hhead)
      rw [pass1Step_cols_length]
      exact hj

/-- One parent-propagation step does not change the number of columns. -/
theorem propagateStep_length (commits : List Commit) (col : Nat)
    (cols : List (Option Nat)) (p : String) :
    (propagateStep commits col cols p).length = cols.length := by
  unfold propagateStep
  split
  · rfl
  · split <;> simp

/-- The parent fold of one second-pass step does not change the number of
columns. -/
theorem foldl_propagate_length (commits : List Commit) (col : Nat) (ps : List String) :
    ∀ cols : List (Option Nat),
    (ps.foldl (propagateStep commits col) cols).length = cols.length := by
  induction ps with
  | nil => intro cols; rfl
  | cons p rest ih =>
    intro cols
    show (rest.foldl (propagateStep commits col) (propagateStep commits col cols p)).length = _
    rw [ih, propagateStep_length]

/-- One step of the second pass does not change the number of columns. -/
theorem pass2Step_length (commits : List Commit) (cols : List (Option Nat)) (i : Nat)
    (c : Commit) : (pass2Step commits cols i c).length = cols.length := by
  unfold pass2Step
  split
  · rfl
  · split
    · rfl
    · exact foldl_propagate_length _ _ _ _

/-- The second pass does not change the number of columns. -/
theorem pass2Go_length (l : List Commit) : ∀ (commits : List Commit)
    (cols : List (Option Nat)) (i : Nat),
    (pass2Go commits cols i l).length = cols.length := by
  induction l with
  | nil => intro commits cols i; rfl
  | cons c rest ih =>
    intro commits cols i
    show (pass2Go commits (pass2Step commits cols i c) (i + 1) rest).length = _
    rw [ih, pass2Step_length]

/-- One parent-propagation step never overwrites an assigned column. -/
theorem propagateStep_preserves_some (commits : List Commit) (col : Nat)
    (cols : List (Option Nat)) (p : String) (j : Nat) (v : Nat)
    (h : cols.getD j none = some v) :
    (propagateStep commits col cols p).getD j none = some v := by
  cases hcm : commitMap commits p with
  | none => simpa [propagateStep, hcm] using h
  | some pIdx =>
    by_cases hnone : cols.getD pIdx none = none
    · have hpj : pIdx ≠ j := by
        intro he
        rw [he, h] at hnone
        cases hnone
      simp only [propagateStep, hcm, if_pos hnone]
      rw [getD_set_ne _ _ _ hpj]
      exact h
    · simp only [propagateStep, hcm, if_neg hnone]
      exact h

/-- The parent fold never overwrites an assigned column. -/
theorem foldl_propagate_preserves_some (commits : List Commit) (col : Nat)
    (ps : List String) : ∀ (cols : List (Option Nat)) (j v : Nat),
    cols.getD j none = some v →
    (ps.foldl (propagateStep commits col) cols).getD j none = some v := by
  induction ps with
  | nil => intro cols j v h; exact h
  | cons p rest ih =>
    intro cols j v h
    exact ih _ _ _ (propagateStep_preserves_some commits col cols p j v h)

/-- One step of the second pass never overwrites an assigned column. -/
theorem pass2Step_preserves_some (commits : List Commit) (cols : List (Option Nat))
    (i : Nat) (c : Commit) (j v : Nat) (h : cols.getD j none = some v) :
    (pass2Step commits cols i c).getD j none = some v := by
  unfold pass2Step
  split
  · exact h
  · split
    · exact h
    · exact foldl_propagate_preserves_some _ _ _ _ _ _ h

/-- The second pass never overwrites an assigned column: first writer wins. -/
theorem pass2Go_preserves_some (l : List Commit) : ∀ (commits : List Commit)
    (cols : List (Option Nat)) (i j v : Nat),
    cols.getD j none = some v →
    (pass2Go commits cols i l).getD j none = some v := by
  induction l with
  | nil => intro commits cols i j v h; exact h
  | cons c rest ih =>
    intro commits cols i j v h
    exact ih _ _ _ _ _ (pass2Step_preserves_some commits cols i c j v h)

/-- The length of the first pass output. -/
theorem pass1_cols_length (commits : List Commit) :
    (pass1 commits).cols.length = commits.length := by
  unfold pass1
  rw [pass1Go_cols_length]
  simp

/-- The length of the full column assignment. -/
theorem assignColumns_length (commits : List Commit) :
    (assignColumns commits).length = commits.length := by
  unfold assignColumns pass3 pass2
  rw [List.length_map, pass2Go_length, pass1_cols_length]

end DrawCommitTree

namespace DrawCommitTree

/-- Every edge collected by the drawing loop resolves its parent through
`commitMap` and routes by the pixel test on the two x coordinates. -/
theorem edgesGo_mem_inv (l : List Commit) : ∀ (commits : List Commit) (cols : List Nat)
    (i : Nat) (e : LayoutEdge), e ∈ edgesGo commits cols i l →
    (commitMap commits e.toSha).isSome = true ∧
    e.routing = (if (xCoord e.fromLane - xCoord e.toLane).natAbs > 5
                 then RoutingKind.curved else RoutingKind.straight) := by
  induction l with
  | nil => intro commits cols i e he; simp [edgesGo] at he
  | cons c rest ih =>
    intro commits cols i e he
    rw [edgesGo, List.mem_append] at he
    rcases he with he | he
    · rcases List.mem_filterMap.mp he with ⟨p, _, hef⟩
      unfold edgeFor at hef
      cases hcm : commitMap commits p with
      | none => rw [hcm] at hef; cases hef
      | some pIdx =>
        rw [hcm] at hef
        injection hef with he2
        subst he2
        exact ⟨by simp [hcm], rfl⟩
    · exact ih commits cols (i + 1) e he

/-- The pixel test of `drawCommitTree` separates lanes exactly: with 50 pixels
per lane, the x coordinates differ by more than 5 pixels exactly when the
lanes differ. -/
theorem xCoord_gap_iff (a b : Nat) :
    ((xCoord a - xCoord b).natAbs > 5) ↔ a ≠ b := by
  unfold xCoord startX columnSpacing
  omega

/-- Each entry of `commitPositions` keeps the sha of the commit at its
position and lies at the y coordinate of its input index. -/
theorem commitPositionsGo_getD (l : List Commit) : ∀ (cols : List Nat) (i k : Nat),
    k < l.length →
    (commitPositionsGo cols i l).getD k default =
      { sha := (l.getD k default).sha, x := xCoord (cols.getD (i + k) 0),
        y := yCoord (i + k) } := by
  induction l with
  | nil => intro cols i k h; simp at h
  | cons c rest ih =>
    intro cols i k h
    cases k with
    | zero => simp [commitPositionsGo]
    | succ k0 =>
      have hk : k0 < rest.length := by simpa using h
      show (commitPositionsGo cols (i + 1) rest).getD k0 default = _
      rw [ih cols (i + 1) k0 hk]
      have harith : i + 1 + k0 = i + (k0 + 1) := by omega
      rw [harith]
      simp [List.getD_cons_succ]

/-- `commitPositions` preserves the sha sequence of the input window. -/
theorem commitPositionsGo_map_sha (l : List Commit) : ∀ (cols : List Nat) (i : Nat),
    (commitPositionsGo cols i l).map Position.sha = l.map Commit.sha := by
  induction l with
  | nil => intro cols i; rfl
  | cons c rest ih =>
    intro cols i
    show ({ sha := c.sha, x := _, y := _ } : Position).sha ::
        (commitPositionsGo cols (i + 1) rest).map Position.sha = _
    rw [ih]
    rfl

end DrawCommitTree

section FindHelpers

/-- A successful `List.find?` splits the list at the first match: everything
before the found element fails the predicate. -/
theorem find?_eq_some_split {α : Type} (p : α → Bool) (l : List α) (a : α)
    (h : l.find? p = some a) :
    p a = true ∧ ∃ l1 l2, l = l1 ++ a :: l2 ∧ ∀ b ∈ l1, p b = false := by
  induction l with
  | nil => cases h
  | cons x t ih =>
    rw [List.find?_cons] at h
    cases hx : p x with
    | true =>
      rw [hx] at h
      have hax : x = a := by cases h; rfl
      subst hax
      exact ⟨hx, [], t, rfl, by simp⟩
    | false =>
      rw [hx] at h
      rcases ih h with ⟨hpa, l1, l2, hsplit, hl1⟩
      refine ⟨hpa, x :: l1, l2, by rw [hsplit]; rfl, ?_⟩
      intro b hb
      rcases List.mem_cons.mp hb with rfl | hb1
      · exact hx
      · exact hl1 b hb1

/-- The empty string is a prefix of every string. -/
theorem isPrefixOf_empty_left (s : String) : ("" : String).isPrefixOf s = true := by
  simp [String.isPrefixOf, String.substrEq, String.substrEq.loop]

end FindHelpers

section HeadHelpers

/-- Lists with equal heads have equal `headD`. -/
theorem headD_congr_of_head? {α : Type} (l1 l2 : List α) (d : α)
    (h : l1.head? = l2.head?) : l1.headD d = l2.headD d := by
  cases l1 <;> cases l2 <;> simp_all

/-- Lists with equal heads are simultaneously empty. -/
theorem isEmpty_congr_of_head? {α : Type} (l1 l2 : List α)
    (h : l1.head? = l2.head?) : l1.isEmpty = l2.isEmpty := by
  cases l1 <;> cases l2 <;> simp_all

/-- Truncating a list to its first element keeps the head. -/
theorem head?_take_one {α : Type} (l : List α) : (l.take 1).head? = l.head? := by
  cases l <;> rfl

end HeadHelpers

section GetDHelpers

/-- In-bounds `getD` is `getElem`. -/
theorem getD_eq_getElem {α : Type} (l : List α) (d : α) {i : Nat} (h : i < l.length) :
    l.getD i d = l[i] := by
  simp [List.getD_eq_getElem?_getD, List.getElem?_eq_getElem h]

/-- `getD` of `replicate` inside the bound. -/
theorem getD_replicate {α : Type} (n : Nat) (d x : α) {i : Nat} (h : i < n) :
    (List.replicate n d).getD i x = d := by
  rw [getD_eq_getElem _ _ (by simpa using h)]
  simp

end GetDHelpers

namespace DrawCommitTree

/-- If no sha of the traversed suffix matches, the accumulator survives. -/
theorem commitMapAux_of_not_mem (s : String) : ∀ (l : List Commit) (i : Nat)
    (acc : Option Nat), (∀ c ∈ l, c.sha ≠ s) → commitMapAux s i acc l = acc := by
  intro l
  induction l with
  | nil => intro i acc _; rfl
  | cons c rest ih =>
    intro i acc hno
    show commitMapAux s (i + 1) (if c.sha = s then some i else acc) rest = acc
    rw [if_neg (hno c (List.mem_cons_self c rest)), ih]
    intro c2 hc2
    exact hno c2 (List.mem_cons_of_mem c hc2)

/-- When exactly one position of the traversed suffix matches the sha, the
map records that position (offset by the running index). -/
theorem commitMapAux_unique (s : String) : ∀ (l : List Commit) (i : Nat)
    (acc : Option Nat) (j : Nat),
    j < l.length → (l.getD j default).sha = s →
    (∀ k, k < l.length → k ≠ j → (l.getD k default).sha ≠ s) →
    commitMapAux s i acc l = some (i + j) := by
  intro l
  induction l with
  | nil => intro i acc j hj _ _; simp at hj
  | cons c rest ih =>
    intro i acc j hj hsha huniq
    cases j with
    | zero =>
      have hcs : c.sha = s := by simpa using hsha
      show commitMapAux s (i + 1) (if c.sha = s then some i else acc) rest = some (i + 0)
      rw [if_pos hcs, commitMapAux_of_not_mem s rest (i + 1) (some i) ?noRest]
      · simp
      case noRest =>
        intro c2 hc2
        rcases List.mem_iff_getElem.mp hc2 with ⟨k, hk, hget⟩
        have h2 := huniq (k + 1) (by simpa using Nat.succ_lt_succ hk) (Nat.succ_ne_zero k)
        rw [List.getD_cons_succ, getD_eq_getElem rest default hk, hget] at h2
        exact h2
    | succ j0 =>
      have hcs : c.sha ≠ s := by
        have h0 := huniq 0 (by simp) (by omega)
        simpa using h0
      show commitMapAux s (i + 1) (if c.sha = s then some i else acc) rest = some (i + (j0 + 1))
      rw [if_neg hcs]
      have hrec := ih (i + 1) acc j0 (by simpa using hj) (by simpa using hsha) ?uniqRest
      · rw [hrec]
        congr 1
        omega
      case uniqRest =>
        intro k hk hkj
        have h2 := huniq (k + 1) (by simpa using Nat.succ_lt_succ hk) (by omega)
        simpa using h2

/-- With distinct shas, `commitMap` sends the sha of the commit at index `j`
back to `j`. -/
theorem commitMap_getD_of_nodup (cs : List Commit)
    (hnodup : (cs.map Commit.sha).Nodup) (j : Nat) (hj : j < cs.length) :
    commitMap cs ((cs.getD j default).sha) = some j := by
  unfold commitMap
  have h := commitMapAux_unique ((cs.getD j default).sha) cs 0 none j hj rfl ?uniq
  · simpa using h
  case uniq =>
    intro k hk hkj he
    apply hkj
    have hmk : (cs.map Commit.sha).get ⟨k, by simpa using hk⟩ =
        (cs.map Commit.sha).get ⟨j, by simpa using hj⟩ := by
      rw [List.get_eq_getElem, List.get_eq_getElem, List.getElem_map, List.getElem_map,
        ← getD_eq_getElem cs default hk, ← getD_eq_getElem cs default hj]
      exact he
    have h2 := hnodup.get_inj_iff.mp hmk
    exact congrArg Fin.val h2

end DrawCommitTree

namespace DrawCommitTree

/-- `commitMap` reads only shas: a sha-preserving rewrite of the window leaves
it unchanged. -/
theorem commitMapAux_map (f : Commit → Commit) (hsha : ∀ c, (f c).sha = c.sha) :
    ∀ (l : List Commit) (s : String) (i : Nat) (acc : Option Nat),
    commitMapAux s i acc (l.map f) = commitMapAux s i acc l := by
  intro l
  induction l with
  | nil => intro s i acc; rfl
  | cons c rest ih =>
    intro s i acc
    show commitMapAux s (i + 1) (if (f c).sha = s then some i else acc) (rest.map f) = _
    rw [hsha c, ih]
    rfl

/-- `commitMap` after a sha-preserving rewrite of the window. -/
theorem commitMap_map (f : Commit → Commit) (hsha : ∀ c, (f c).sha = c.sha)
    (l : List Commit) (s : String) : commitMap (l.map f) s = commitMap l s :=
  commitMapAux_map f hsha l s 0 none

/-- The first pass reads only the first branch label of a commit. -/
theorem pass1Step_congr (st : Pass1State) (i : Nat) (c c2 : Commit)
    (hbr : c2.branches.head? = c.branches.head?) :
    pass1Step st i c2 = pass1Step st i c := by
  unfold pass1Step
  rw [isEmpty_congr_of_head? _ _ hbr, headD_congr_of_head? _ _ _ hbr]

/-- The first pass is unchanged by a rewrite of the window that keeps every
first branch label. -/
theorem pass1Go_map (f : Commit → Commit)
    (hbr : ∀ c, (f c).branches.head? = c.branches.head?) :
    ∀ (l : List Commit) (st : Pass1State) (i : Nat),
    pass1Go st i (l.map f) = pass1Go st i l := by
  intro l
  induction l with
  | nil => intro st i; rfl
  | cons c rest ih =>
    intro st i
    show pass1Go (pass1Step st i (f c)) (i + 1) (rest.map f) = _
    rw [pass1Step_congr st i c (f c) (hbr c), ih]
    rfl

/-- Unresolvable parents are no-ops of the propagation fold: folding over the
full parent list equals folding over the resolvable parents only. -/
theorem foldl_propagate_filter (commits : List Commit) (col : Nat) (ps : List String) :
    ∀ cols : List (Option Nat),
    ps.foldl (propagateStep commits col) cols =
      (ps.filter (fun p => (commitMap commits p).isSome)).foldl
        (propagateStep commits col) cols := by
  induction ps with
  | nil => intro cols; rfl
  | cons p rest ih =>
    intro cols
    by_cases hp : (commitMap commits p).isSome = true
    · rw [List.foldl_cons, List.filter_cons, if_pos hp, List.foldl_cons, ih]
    · have hnone : commitMap commits p = none := by
        cases hcm : commitMap commits p with
        | none => rfl
        | some j => rw [hcm] at hp; simp at hp
      rw [List.foldl_cons, List.filter_cons, if_neg hp]
      have hstep : propagateStep commits col cols p = cols := by
        unfold propagateStep
        rw [hnone]
      rw [hstep, ih]

/-- One step of the second pass, with the parent list restricted to its
resolvable part (the empty-parents guard collapses into the fold). -/
theorem pass2Step_filter (commits : List Commit) (cols : List (Option Nat)) (i : Nat)
    (c : Commit) (col : Nat) (hcol : cols.getD i none = some col) :
    pass2Step commits cols i c =
      (c.parents.filter (fun p => (commitMap commits p).isSome)).foldl
        (propagateStep commits col) cols := by
  unfold pass2Step
  rw [hcol]
  cases hps : c.parents with
  | nil => rfl
  | cons q qs =>
    rw [← hps]
    have hne : c.parents.isEmpty = false := by rw [hps]; rfl
    rw [hne]
    show c.parents.foldl (propagateStep commits col) cols = _
    exact foldl_propagate_filter commits col c.parents cols

/-- One step of the second pass is unchanged when the window rewrite keeps
shas and resolvable parents. -/
theorem pass2Step_congr (commits commits2 : List Commit) (cols : List (Option Nat))
    (i : Nat) (c c2 : Commit)
    (hcm : ∀ s, commitMap commits2 s = commitMap commits s)
    (hpar : c2.parents.filter (fun p => (commitMap commits p).isSome) =
            c.parents.filter (fun p => (commitMap commits p).isSome)) :
    pass2Step commits2 cols i c2 = pass2Step commits cols i c := by
  have hps : propagateStep commits2 = propagateStep commits := by
    funext col cols0 p
    unfold propagateStep
    rw [hcm p]
  have hfil : ∀ p, ((commitMap commits2 p).isSome : Bool) = (commitMap commits p).isSome := by
    intro p
    rw [hcm p]
  cases hcol : cols.getD i none with
  | none =>
      unfold pass2Step
      rw [hcol]
  | some col =>
      rw [pass2Step_filter commits2 cols i c2 col hcol,
        pass2Step_filter commits cols i c col hcol, hps]
      have : c2.parents.filter (fun p => (commitMap commits2 p).isSome) =
          c.parents.filter (fun p => (commitMap commits p).isSome) := by
        rw [List.filter_congr]
        · exact hpar
        · intro p _
          rw [hfil p]
      rw [this]

/-- The second pass is unchanged when the window rewrite keeps shas and
resolvable parents. -/
theorem pass2Go_map (cs : List Commit) (f : Commit → Commit)
    (hcm : ∀ s, commitMap (cs.map f) s = commitMap cs s)
    (hpar : ∀ c, (f c).parents.filter (fun p => (commitMap cs p).isSome) =
           c.parents.filter (fun p => (commitMap cs p).isSome)) :
    ∀ (l : List Commit) (cols : List (Option Nat)) (i : Nat),
    pass2Go (cs.map f) cols i (l.map f) = pass2Go cs cols i l := by
  intro l
  induction l with
  | nil => intro cols i; rfl
  | cons c rest ih =>
    intro cols i
    show pass2Go (cs.map f) (pass2Step (cs.map f) cols i (f c)) (i + 1) (rest.map f) = _
    rw [pass2Step_congr cs (cs.map f) cols i c (f c) hcm (hpar c), ih]
    rfl

/-- The full column assignment is unchanged by a rewrite of the window that
keeps shas, first branch labels and resolvable parents. -/
theorem assignColumns_map (cs : List Commit) (f : Commit → Commit)
    (hsha : ∀ c, (f c).sha = c.sha)
    (hbr : ∀ c, (f c).branches.head? = c.branches.head?)
    (hpar : ∀ c, (f c).parents.filter (fun p => (commitMap cs p).isSome) =
           c.parents.filter (fun p => (commitMap cs p).isSome)) :
    assignColumns (cs.map f) = assignColumns cs := by
  have hcm : ∀ s, commitMap (cs.map f) s = commitMap cs s := commitMap_map f hsha cs
  unfold assignColumns pass2 pass1
  rw [List.length_map, pass1Go_map f hbr, pass2Go_map cs f hcm hpar]

/-- `edgeFor` is unchanged when the window rewrite keeps shas. -/
theorem edgeFor_congr (cs : List Commit) (f : Commit → Commit)
    (hcm : ∀ s, commitMap (cs.map f) s = commitMap cs s)
    (hsha : ∀ c, (f c).sha = c.sha) (cols : List Nat) (i : Nat) (c : Commit) :
    edgeFor (cs.map f) cols i (f c) = edgeFor cs cols i c := by
  funext p
  unfold edgeFor
  rw [hcm p, hsha c]

/-- Unresolvable parents contribute no edge: collecting over the full parent
list equals collecting over the resolvable parents only. -/
theorem filterMap_edgeFor_filter (cs : List Commit) (cols : List Nat) (i : Nat)
    (c : Commit) : ∀ ps : List String,
    ps.filterMap (edgeFor cs cols i c) =
      (ps.filter (fun p => (commitMap cs p).isSome)).filterMap (edgeFor cs cols i c) := by
  intro ps
  induction ps with
  | nil => rfl
  | cons p rest ih =>
    by_cases hp : (commitMap cs p).isSome = true
    · rw [List.filter_cons, if_pos hp, List.filterMap_cons, List.filterMap_cons, ih]
    · have hnone : commitMap cs p = none := by
        cases hcm : commitMap cs p with
        | none => rfl
        | some j => rw [hcm] at hp; simp at hp
      have hef : edgeFor cs cols i c p = none := by
        unfold edgeFor
        rw [hnone]
      rw [List.filter_cons, if_neg hp, List.filterMap_cons, hef, ih]

/-- The edge collection is unchanged when the window rewrite keeps shas and
resolvable parents. -/
theorem edgesGo_map (cs : List Commit) (f : Commit → Commit)
    (hcm : ∀ s, commitMap (cs.map f) s = commitMap cs s)
    (hsha : ∀ c, (f c).sha = c.sha)
    (hpar : ∀ c, (f c).parents.filter (fun p => (commitMap cs p).isSome) =
           c.parents.filter (fun p => (commitMap cs p).isSome)) :
    ∀ (l : List Commit) (cols : List Nat) (i : Nat),
    edgesGo (cs.map f) cols i (l.map f) = edgesGo cs cols i l := by
  intro l
  induction l with
  | nil => intro cols i; rfl
  | cons c rest ih =>
    intro cols i
    show (f c).parents.filterMap (edgeFor (cs.map f) cols i (f c)) ++
        edgesGo (cs.map f) cols (i + 1) (rest.map f) = _
    rw [ih, edgeFor_congr cs f hcm hsha cols i c]
    have hfil : ∀ p, ((commitMap (cs.map f) p).isSome : Bool) = (commitMap cs p).isSome := by
      intro p
      rw [hcm p]
    rw [filterMap_edgeFor_filter cs cols i c ((f c).parents), hpar c,
      ← filterMap_edgeFor_filter cs cols i c c.parents]
    rfl

end DrawCommitTree

namespace DrawCommitTree

/-- Invariant of the second pass on a linear chain: entering the step at
index `i` with exactly the indices up to `i` assigned to lane `v`, the
propagation hands `v` down the chain until every index is assigned. -/
theorem pass2Go_chain (cs : List Commit) (v : Nat)
    (hnodup : (cs.map Commit.sha).Nodup)
    (hparents : ∀ t, t + 1 < cs.length →
      (cs.getD t default).parents = [(cs.getD (t + 1) default).sha])
    (hlast : (cs.getD (cs.length - 1) default).parents = []) :
    ∀ (l : List Commit) (i : Nat) (cols : List (Option Nat)),
    i + l.length = cs.length →
    (∀ k, k < l.length → l.getD k default = cs.getD (i + k) default) →
    cols.length = cs.length →
    (∀ j, j < cs.length → cols.getD j none = if j ≤ i then some v else none) →
    ∀ j, j < cs.length → (pass2Go cs cols i l).getD j none = some v := by
  intro l
  induction l with
  | nil =>
    intro i cols hlen hsuf hclen hinv j hj
    show cols.getD j none = some v
    rw [hinv j hj, if_pos (by simp at hlen; omega)]
  | cons c rest ih =>
    intro i cols hlen hsuf hclen hinv j hj
    show (pass2Go cs (pass2Step cs cols i c) (i + 1) rest).getD j none = some v
    have hlen2 : i + (rest.length + 1) = cs.length := by simpa using hlen
    have hi : i < cs.length := by omega
    have hc : c = cs.getD i default := by
      have h0 := hsuf 0 (by simp)
      simpa using h0
    have hcoli : cols.getD i none = some v := by
      rw [hinv i hi, if_pos (Nat.le_refl i)]
    by_cases hnext : i + 1 < cs.length
    · have hcp : c.parents = [(cs.getD (i + 1) default).sha] := by
        rw [hc]
        exact hparents i hnext
      have hcm1 : commitMap cs ((cs.getD (i + 1) default).sha) = some (i + 1) :=
        commitMap_getD_of_nodup cs hnodup (i + 1) hnext
      have hnone : cols.getD (i + 1) none = none := by
        rw [hinv (i + 1) hnext, if_neg (by omega)]
      have hstep : pass2Step cs cols i c = cols.set (i + 1) (some v) := by
        unfold pass2Step
        rw [hcoli, hcp]
        simp only [List.isEmpty_cons, Bool.false_eq_true, if_false,
          List.foldl_cons, List.foldl_nil]
        unfold propagateStep
        rw [hcm1]
        simp only [hnone, if_pos]
      rw [hstep]
      refine ih (i + 1) (cols.set (i + 1) (some v)) (by omega) ?hsuf2 (by simpa using hclen)
        ?hinv2 j hj
      case hsuf2 =>
        intro k hk
        have h2 := hsuf (k + 1) (by simpa using Nat.succ_lt_succ hk)
        rw [List.getD_cons_succ] at h2
        rw [h2]
        congr 1
        omega
      case hinv2 =>
        intro j2 hj2
        by_cases hj21 : j2 = i + 1
        · subst hj21
          rw [getD_set_self _ _ _ (by omega), if_pos (Nat.le_refl _)]
        · rw [getD_set_ne _ _ _ (fun he => hj21 he.symm), hinv j2 hj2]
          by_cases hji : j2 ≤ i
          · rw [if_pos hji, if_pos (by omega)]
          · rw [if_neg hji, if_neg (by omega)]
    · have hieq : i = cs.length - 1 := by omega
      have hcp : c.parents = [] := by
        rw [hc, hieq]
        exact hlast
      have hstep : pass2Step cs cols i c = cols := by
        unfold pass2Step
        rw [hcoli, hcp]
        rfl
      have hrest : rest = [] := List.eq_nil_of_length_eq_zero (by omega)
      subst hrest
      rw [hstep]
      show cols.getD j none = some v
      rw [hinv j hj, if_pos (by omega)]

/-- The cons equation of the first-pass loop. -/
theorem pass1Go_cons (st : Pass1State) (i : Nat) (c : Commit) (rest : List Commit) :
    pass1Go st i (c :: rest) = pass1Go (pass1Step st i c) (i + 1) rest := rfl

/-- A labelled commit always receives some column from the first pass. -/
theorem pass1Go_labelled (l : List Commit) : ∀ (st : Pass1State) (i j k : Nat),
    j < st.cols.length → k < l.length → i + k = j →
    (l.getD k default).branches ≠ [] →
    ∃ v, (pass1Go st i l).cols.getD j none = some v := by
  induction l with
  | nil => intro st i j k _ hk; simp at hk
  | cons c rest ih =>
    intro st i j k hj hk hik hbr
    cases k with
    | zero =>
      have hij : i = j := by omega
      subst hij
      have hcb : c.branches ≠ [] := by simpa using hbr
      rw [pass1Go_cons, pass1Go_getD_lt rest _ _ _ (Nat.lt_succ_self i)]
      have hbne : c.branches.isEmpty = false := by
        cases hcb2 : c.branches with
        | nil => exact absurd hcb2 hcb
        | cons x xs => rfl
      unfold pass1Step
      simp only [hbne, Bool.false_eq_true, if_false]
      cases hlk : st.branchToColumn.lookup (c.branches.headD "") with
      | some col => exact ⟨col, getD_set_self _ _ _ hj⟩
      | none => exact ⟨st.nextColumn, getD_set_self _ _ _ hj⟩
    | succ k0 =>
      rw [pass1Go_cons]
      refine ih (pass1Step st i c) (i + 1) j k0 ?_ (by simpa using hk) (by omega)
        (by simpa using hbr)
      rw [pass1Step_cols_length]
      exact hj

end DrawCommitTree

/-- C5: on a linear history — each revision's parent list is exactly the next
revision of the newest-first window, the oldest has no parent, and only the
newest carries a branch label — every node ends on the same lane: the first
pass assigns a lane only to the tip, and the propagation pass hands that lane
down the whole chain. -/
theorem linear_history_single_lane (commits : List Commit)
    (hne : commits ≠ [])
    (hnodup : (commits.map Commit.sha).Nodup)
    (hlabel : (commits.getD 0 default).branches ≠ [])
    (hunlabelled : ∀ k, k < commits.length → 0 < k →
      (commits.getD k default).branches = [])
    (hparents : ∀ t, t < commits.length → t + 1 < commits.length →
      (commits.getD t default).parents = [(commits.getD (t + 1) default).sha])
    (hlast : (commits.getD (commits.length - 1) default).parents = [])
    (i j : Nat) (hi : i < commits.length) (hj : j < commits.length) :
    (DrawCommitTree.assignColumns commits).getD i 0 =
      (DrawCommitTree.assignColumns commits).getD j 0 := by
  have hpos : 0 < commits.length := List.length_pos.mpr hne
  have hlen1 : (DrawCommitTree.pass1 commits).cols.length = commits.length :=
    DrawCommitTree.pass1_cols_length commits
  have hv : ∃ v, (DrawCommitTree.pass1 commits).cols.getD 0 none = some v := by
    unfold DrawCommitTree.pass1
    refine DrawCommitTree.pass1Go_labelled commits _ 0 0 0 ?_ hpos (by omega) hlabel
    simpa using hpos
  obtain ⟨v, hv0⟩ := hv
  have hnone : ∀ k, 0 < k → k < commits.length →
      (DrawCommitTree.pass1 commits).cols.getD k none = none := by
    intro k hk0 hklen
    unfold DrawCommitTree.pass1
    rw [DrawCommitTree.pass1Go_getD_branchless commits _ 0 k ?hbr]
    · exact getD_replicate _ _ _ hklen
    case hbr =>
      intro k2 hk2 h0k2
      exact hunlabelled k2 hk2 (by omega)
  have hinv : ∀ j2, j2 < commits.length →
      (DrawCommitTree.pass1 commits).cols.getD j2 none =
        if j2 ≤ 0 then some v else none := by
    intro j2 hj2
    by_cases hz : j2 = 0
    · subst hz
      rw [if_pos (Nat.le_refl 0)]
      exact hv0
    · rw [if_neg (by omega)]
      exact hnone j2 (by omega) hj2
  have hall : ∀ j2, j2 < commits.length →
      (DrawCommitTree.pass2 commits (DrawCommitTree.pass1 commits).cols).getD j2 none =
        some v := by
    unfold DrawCommitTree.pass2
    exact DrawCommitTree.pass2Go_chain commits v hnodup
      (fun t ht => hparents t (by omega) ht) hlast commits 0 _ (by omega)
      (fun k _ => by rw [Nat.zero_add]) hlen1 hinv
  have hlen2 : (DrawCommitTree.pass2 commits
      (DrawCommitTree.pass1 commits).cols).length = commits.length := by
    unfold DrawCommitTree.pass2
    rw [DrawCommitTree.pass2Go_length, hlen1]
  have hfun : ∀ k, k < commits.length →
      (DrawCommitTree.assignColumns commits).getD k 0 = v := by
    intro k hk
    unfold DrawCommitTree.assignColumns DrawCommitTree.pass3
    rw [getD_map_of_default _ _ k none 0 (by rw [hlen2]; exact hk), hall k hk]
    rfl
  rw [hfun i hi, hfun j hj]

/-- C5 witness: the three-commit chain puts all three nodes on one lane. -/
theorem linear_history_single_lane_witness :
    (DrawCommitTree.assignColumns chainThree).getD 0 0 =
      (DrawCommitTree.assignColumns chainThree).getD 2 0 :=
  linear_history_single_lane chainThree (by decide) (by decide) (by decide)
    (by decide) (by decide) (by decide) 0 2 (by decide) (by decide)

/-- C1 counterexample: on the spec's branch scenario the claim is false at
the concrete input — the lane of C2 (index 2 of the window) is 1, not 0, and
the edge from C4 to C2 is drawn straight, not curved, because in build order
C4 precedes C3, so C4 is the first writer that propagates a lane to C2. -/
theorem branch_scenario_claim_refuted :
    ¬ ((DrawCommitTree.assignColumns branchScenario).getD 2 0 = 0 ∧
       DrawCommitTree.edgeRouting branchScenario "C4" "C2" =
         some DrawCommitTree.RoutingKind.curved) := by decide

/-- C1 (amended): on the branch scenario the lanes are C4 ↦ 1, C3 ↦ 0,
C2 ↦ 1, C1 ↦ 1 — C2 inherits lane 1 from C4, the first writer in build
order — and the edge from C4 to C2 has straight routing (lane 1 to
lane 1). -/
theorem branch_scenario_layout :
    DrawCommitTree.assignColumns branchScenario = [1, 0, 1, 1] ∧
    DrawCommitTree.edgeRouting branchScenario "C4" "C2" =
      some DrawCommitTree.RoutingKind.straight := by decide

/-- C2 counterexample: `GitGraph._assign_columns` has no reservation pass —
`branch_columns` starts empty and `next_column` starts at 0 — so in a window
where the feature tip precedes the main tip, the node whose first branch
label is main is assigned lane 1, not 0. -/
theorem py_main_label_not_lane_zero :
    GitGraph.assign_columns pyMainAfterFeature = [0, 1] ∧
    (pyMainAfterFeature.getD 1 default).branches.head? = some "main" ∧
    (GitGraph.assign_columns pyMainAfterFeature).getD 1 0 ≠ 0 := by decide

/-- C2 (amended): in the lane assignment of `drawCommitTree`, every node
whose first branch label is main is assigned lane 0 — main is pre-bound to
lane 0 before any revision is processed, the first pass therefore writes
lane 0 on such a node, and the later passes never overwrite an assigned
lane. In `GitGraph._assign_columns` there is no reservation pass, so a
main-labelled node can land on a nonzero lane when another branch tip
precedes it in the window. -/
theorem main_label_lane_zero (commits : List Commit) (i : Nat)
    (hi : i < commits.length)
    (hmain : (commits.getD i default).branches.head? = some "main") :
    (DrawCommitTree.assignColumns commits).getD i 0 = 0 := by
  have h1 : (DrawCommitTree.pass1 commits).cols.getD i none = some 0 := by
    unfold DrawCommitTree.pass1
    refine DrawCommitTree.pass1Go_main_col commits _ 0 i i rfl ?_ hi
      (by omega) hmain
    simpa using hi
  have h2 : (DrawCommitTree.pass2 commits
      (DrawCommitTree.pass1 commits).cols).getD i none = some 0 := by
    unfold DrawCommitTree.pass2
    exact DrawCommitTree.pass2Go_preserves_some commits commits _ 0 i 0 h1
  have hlen2 : (DrawCommitTree.pass2 commits
      (DrawCommitTree.pass1 commits).cols).length = commits.length := by
    unfold DrawCommitTree.pass2
    rw [DrawCommitTree.pass2Go_length, DrawCommitTree.pass1_cols_length]
  unfold DrawCommitTree.assignColumns DrawCommitTree.pass3
  rw [getD_map_of_default _ _ i none 0 (by rw [hlen2]; exact hi)]
  rw [h2]
  rfl

/-- C2 witness: in the branch scenario, C3 (index 1) carries first label main
and indeed sits on lane 0. -/
theorem main_label_lane_zero_witness :
    (DrawCommitTree.assignColumns branchScenario).getD 1 0 = 0 :=
  main_label_lane_zero branchScenario 1 (by decide) (by decide)

/-- C9: every drawn edge is straight exactly when the two lanes coincide and
curved exactly when they differ — the pixel test `|x1 - x2| > 5` of
`drawCommitTree`, at 50 pixels per lane, separates lanes exactly. -/
theorem edge_routing_by_lanes (commits : List Commit) (e : DrawCommitTree.LayoutEdge)
    (he : e ∈ DrawCommitTree.edges commits) :
    (e.routing = DrawCommitTree.RoutingKind.straight ↔ e.fromLane = e.toLane) ∧
    (e.routing = DrawCommitTree.RoutingKind.curved ↔ e.fromLane ≠ e.toLane) := by
  have h := (DrawCommitTree.edgesGo_mem_inv commits commits _ 0 e he).2
  by_cases hlane : e.fromLane = e.toLane
  · rw [if_neg (by rw [DrawCommitTree.xCoord_gap_iff]; simp [hlane])] at h
    constructor <;> simp [h, hlane]
  · rw [if_pos ((DrawCommitTree.xCoord_gap_iff _ _).mpr hlane)] at h
    constructor <;> simp [h, hlane]

/-- C9 witness: the edge from C4 to C2 of the branch scenario joins lane 1 to
lane 1 and is straight. -/
theorem edge_routing_by_lanes_witness :
    (edgeC4C2.routing = DrawCommitTree.RoutingKind.straight ↔
      edgeC4C2.fromLane = edgeC4C2.toLane) ∧
    (edgeC4C2.routing = DrawCommitTree.RoutingKind.curved ↔
      edgeC4C2.fromLane ≠ edgeC4C2.toLane) :=
  edge_routing_by_lanes branchScenario edgeC4C2 (by decide)

/-- C3 counterexample: `HorizontalGitGraph._assign_positions` re-sorts the
nodes by timestamp — on a window whose timestamps disagree with its list
order the column sequence follows neither the input order nor its
reverse. -/
theorem horizontal_engine_resorts :
    HorizontalGitGraph.assign_positions_cols hThree = [("X", 0), ("Z", 1), ("Y", 2)] ∧
    (HorizontalGitGraph.assign_positions_cols hThree).map Prod.fst ≠
      hThree.map HNode.sha ∧
    (HorizontalGitGraph.assign_positions_cols hThree).map Prod.fst ≠
      (hThree.map HNode.sha).reverse := by decide

/-- C3 (amended): the vertical engine `drawCommitTree` preserves the given
window order as the sequence index — node `k` of the layout carries the sha
of revision `k` of the input and sits at `y = 30 + 60·k` — and the layout
lists the shas exactly in input order; the horizontal engine
`HorizontalGitGraph._assign_positions`, however, re-sorts nodes by timestamp
to assign its sequence positions. -/
theorem vertical_engine_preserves_order (commits : List Commit) (k : Nat)
    (hk : k < commits.length) :
    ((DrawCommitTree.commitPositions commits).getD k default).sha =
      (commits.getD k default).sha ∧
    ((DrawCommitTree.commitPositions commits).getD k default).y = 30 + 60 * (k : Int) ∧
    (DrawCommitTree.commitPositions commits).map DrawCommitTree.Position.sha =
      commits.map Commit.sha := by
  unfold DrawCommitTree.commitPositions
  rw [DrawCommitTree.commitPositionsGo_getD commits _ 0 k hk]
  refine ⟨rfl, ?_, DrawCommitTree.commitPositionsGo_map_sha commits _ 0⟩
  show DrawCommitTree.yCoord (0 + k) = 30 + 60 * (k : Int)
  unfold DrawCommitTree.yCoord DrawCommitTree.startY DrawCommitTree.verticalSpacing
  omega

/-- C3 witness: in the branch scenario, layout node 2 is C2 at y = 150. -/
theorem vertical_engine_preserves_order_witness :
    ((DrawCommitTree.commitPositions branchScenario).getD 2 default).sha =
      (branchScenario.getD 2 default).sha ∧
    ((DrawCommitTree.commitPositions branchScenario).getD 2 default).y =
      30 + 60 * (2 : Int) ∧
    (DrawCommitTree.commitPositions branchScenario).map DrawCommitTree.Position.sha =
      branchScenario.map Commit.sha :=
  vertical_engine_preserves_order branchScenario 2 (by decide)

/-- C10: `get_node_by_sha` returns the first node in list order matching the
given string (full sha starts with it, or short sha equals it), returns
nothing exactly when no node matches, and on a non-empty node list the empty
string matches immediately, returning the first (newest) node. -/
theorem get_node_by_sha_first_match (nodes : List CommitNode) (sha : String) :
    (∀ n, GitGraph.get_node_by_sha nodes sha = some n →
      GitGraph.shaMatches sha n = true ∧
      ∃ pre post, nodes = pre ++ n :: post ∧
        ∀ m ∈ pre, GitGraph.shaMatches sha m = false) ∧
    (GitGraph.get_node_by_sha nodes sha = none ↔
      ∀ n ∈ nodes, GitGraph.shaMatches sha n = false) ∧
    (nodes ≠ [] → GitGraph.get_node_by_sha nodes "" = nodes.head?) := by
  refine ⟨?_, ?_, ?_⟩
  · intro n hn
    exact find?_eq_some_split _ nodes n hn
  · simp [GitGraph.get_node_by_sha, List.find?_eq_none]
  · intro hne
    cases nodes with
    | nil => cases hne rfl
    | cons x t =>
      unfold GitGraph.get_node_by_sha
      rw [List.find?_cons_of_pos]
      · rfl
      · unfold GitGraph.shaMatches
        rw [isPrefixOf_empty_left]
        rfl

/-- C10 witness: on a two-node list the empty string returns the first
node. -/
theorem get_node_by_sha_first_match_witness :
    GitGraph.get_node_by_sha lookupNodes "" = lookupNodes.head? :=
  (get_node_by_sha_first_match lookupNodes "").2.2 (by decide)

namespace GitGraph

/-- The number of head-marked nodes `build_graph` produces equals the number
of window records whose sha the reported head matches. -/
theorem build_graph_head_countP (records : List RevRecord)
    (tips tags : List (String × String)) (head : Option String) :
    ((build_graph records tips tags head).filter (fun n => n.is_head)).length =
      records.countP (fun r => decide (head = some r.sha)) := by
  unfold build_graph
  rw [List.filter_map, List.length_map, ← List.countP_eq_length_filter]
  rfl

/-- Among distinct shas, exactly one matches a head that is present. -/
theorem countP_head_of_mem (l : List String) (h : String) (hnodup : l.Nodup)
    (hm : h ∈ l) : l.countP (fun s => decide (some h = some s)) = 1 := by
  induction l with
  | nil => cases hm
  | cons x t ih =>
    rw [List.countP_cons]
    rcases List.mem_cons.mp hm with rfl | hmt
    · have ht : t.countP (fun s => decide (some h = some s)) = 0 := by
        apply List.countP_eq_zero.mpr
        intro s hs
        simp only [decide_eq_true_eq, Option.some.injEq]
        intro he
        exact (List.nodup_cons.mp hnodup).1 (he ▸ hs)
      rw [ht]
      simp
    · have hx : (decide (some h = some x) : Bool) = false := by
        simp only [decide_eq_false_iff_not, Option.some.injEq]
        intro he
        exact (List.nodup_cons.mp hnodup).1 (he ▸ hmt)
      rw [ih (List.nodup_cons.mp hnodup).2 hmt, hx]
      simp

/-- No sha matches a head outside the window. -/
theorem countP_head_of_not_mem (l : List String) (h : String) (hm : h ∉ l) :
    l.countP (fun s => decide (some h = some s)) = 0 := by
  apply List.countP_eq_zero.mpr
  intro s hs
  simp only [decide_eq_true_eq, Option.some.injEq]
  intro he
  exact hm (he ▸ hs)

/-- Counting matching records is counting matching shas. -/
theorem countP_sha_map (records : List RevRecord) (oh : Option String) :
    (records.map RevRecord.sha).countP (fun s => decide (oh = some s)) =
      records.countP (fun r => decide (oh = some r.sha)) := by
  rw [List.countP_map]
  rfl

end GitGraph

/-- C7: when the reported head id belongs to some revision of the window and
shas are unique, exactly one built node carries `is_head`; when no head is
reported or the reported head lies outside the window, none does — marking
is by direct sha comparison in `build_graph`. -/
theorem head_marking_unique (records : List GitGraph.RevRecord)
    (tips tags : List (String × String)) (head : Option String)
    (hnodup : (records.map GitGraph.RevRecord.sha).Nodup) :
    ((∃ h, head = some h ∧ h ∈ records.map GitGraph.RevRecord.sha) →
      ((GitGraph.build_graph records tips tags head).filter
        (fun n => n.is_head)).length = 1) ∧
    ((∀ h, head = some h → h ∉ records.map GitGraph.RevRecord.sha) →
      ((GitGraph.build_graph records tips tags head).filter
        (fun n => n.is_head)).length = 0) := by
  constructor
  · rintro ⟨h, rfl, hm⟩
    rw [GitGraph.build_graph_head_countP, ← GitGraph.countP_sha_map]
    exact GitGraph.countP_head_of_mem _ h hnodup hm
  · intro hnot
    cases head with
    | none =>
      rw [GitGraph.build_graph_head_countP]
      simp
    | some h =>
      rw [GitGraph.build_graph_head_countP, ← GitGraph.countP_sha_map]
      exact GitGraph.countP_head_of_not_mem _ h (hnot h rfl)

/-- C7 witness: with head aaaaaaaaaa inside the two-record window exactly one
node is marked; with a head outside the window none is. -/
theorem head_marking_unique_witness :
    ((GitGraph.build_graph headRecords [] [] (some "aaaaaaaaaa")).filter
      (fun n => n.is_head)).length = 1 ∧
    ((GitGraph.build_graph headRecords [] [] (some "zzz")).filter
      (fun n => n.is_head)).length = 0 :=
  ⟨(head_marking_unique headRecords [] [] (some "aaaaaaaaaa") (by decide)).1
      ⟨"aaaaaaaaaa", rfl, by decide⟩,
   (head_marking_unique headRecords [] [] (some "zzz") (by decide)).2
      (by intro h hh; cases hh; decide)⟩

/-- C8 counterexample: a log line missing the required fields (a bare sha
with no separators) is skipped silently — the build returns a graph with the
record omitted; it is not rejected as malformed input. -/
theorem malformed_record_not_rejected :
    CommitTreeEndpoint.get_commit_tree ["deadbeefcafe"] [] "" =
      CommitTreeEndpoint.BuildResult.ok [] ∧
    CommitTreeEndpoint.get_commit_tree ["deadbeefcafe"] [] "" ≠
      CommitTreeEndpoint.BuildResult.malformedInput := by decide

/-- C8 (amended): the Graph Builder performs no id validation and never
rejects its input: every build returns a normally built commit list, and a
record line with fewer than seven fields simply contributes no commit. -/
theorem build_never_rejects (logLines : List String) (tips : List (String × String))
    (currentSha : String) (line : String)
    (hshort : (CommitTreeEndpoint.pySplit line '|' 6).length < 7) :
    (∃ cs, CommitTreeEndpoint.get_commit_tree logLines tips currentSha =
       CommitTreeEndpoint.BuildResult.ok cs) ∧
    CommitTreeEndpoint.parseLogLine tips currentSha line = none := by
  constructor
  · exact ⟨_, rfl⟩
  · unfold CommitTreeEndpoint.parseLogLine
    split
    · rfl
    · rw [if_neg (by omega)]

/-- C8 witness: the bare-sha line has one field, and the build on it returns
a graph with nothing in it. -/
theorem build_never_rejects_witness :
    (∃ cs, CommitTreeEndpoint.get_commit_tree ["deadbeefcafe"] [] "" =
       CommitTreeEndpoint.BuildResult.ok cs) ∧
    CommitTreeEndpoint.parseLogLine [] "" "deadbeefcafe" = none :=
  build_never_rejects ["deadbeefcafe"] [] "" "deadbeefcafe" (by decide)

/-- C4 counterexample: in `GitGraph._assign_columns` the labels after the
first do influence the lane — two windows identical in shas, parents and
first labels, differing only in the second label of node B, give B lane 0 in
one and lane 1 in the other, because the loop scans all labels for an
already-bound one. -/
theorem py_later_labels_influence_lane :
    GitGraph.assign_columns pyTwoLabels = [0, 0] ∧
    GitGraph.assign_columns pyTwoLabelsAlt = [0, 1] ∧
    pyTwoLabels.map (fun n => n.branches.head?) =
      pyTwoLabelsAlt.map (fun n => n.branches.head?) ∧
    pyTwoLabels.map CommitNode.sha = pyTwoLabelsAlt.map CommitNode.sha ∧
    pyTwoLabels.map CommitNode.parents = pyTwoLabelsAlt.map CommitNode.parents := by
  decide

/-- C4 (amended): in `drawCommitTree`, only the first label of a node
influences lane selection — any rewrite of the window that preserves shas,
parent lists and first branch labels, however it changes the remaining
labels, leaves every lane unchanged. In `GitGraph._assign_columns`, however,
later labels are consulted: the first already-bound label wins and a fresh
lane is bound to all labels, so labels after the first can change the
lane. -/
theorem first_label_decides_lane (commits : List Commit) (g : Commit → Commit)
    (hsha : ∀ c, (g c).sha = c.sha)
    (hpar : ∀ c, (g c).parents = c.parents)
    (hbr : ∀ c, (g c).branches.head? = c.branches.head?) :
    DrawCommitTree.assignColumns (commits.map g) = DrawCommitTree.assignColumns commits := by
  apply DrawCommitTree.assignColumns_map commits g hsha hbr
  intro c
  rw [hpar c]

/-- C4 witness: truncating every label list of the branch scenario to its
first label leaves the lane assignment unchanged. -/
theorem first_label_decides_lane_witness :
    DrawCommitTree.assignColumns
        (branchScenario.map (fun c => { c with branches := c.branches.take 1 })) =
      DrawCommitTree.assignColumns branchScenario :=
  first_label_decides_lane branchScenario
    (fun c => { c with branches := c.branches.take 1 })
    (fun _ => rfl) (fun _ => rfl) (fun c => head?_take_one c.branches)

/-- C6: a parent id that does not resolve in the window is tolerated — every
drawn edge resolves its parent (the edge to a dangling parent is simply
omitted), and dropping all dangling parent ids from the window changes
neither the lane assignment nor the drawn edges, so a dangling parent
contributes nothing. The embedded build is total: no code path raises. -/
theorem dangling_parent_tolerated (commits : List Commit) :
    (∀ e ∈ DrawCommitTree.edges commits,
      (DrawCommitTree.commitMap commits e.toSha).isSome = true) ∧
    DrawCommitTree.assignColumns (commits.map (DrawCommitTree.pruneDangling commits)) =
      DrawCommitTree.assignColumns commits ∧
    DrawCommitTree.edges (commits.map (DrawCommitTree.pruneDangling commits)) =
      DrawCommitTree.edges commits := by
  have hsha : ∀ c, (DrawCommitTree.pruneDangling commits c).sha = c.sha := fun _ => rfl
  have hcm : ∀ s, DrawCommitTree.commitMap
      (commits.map (DrawCommitTree.pruneDangling commits)) s =
      DrawCommitTree.commitMap commits s :=
    DrawCommitTree.commitMap_map _ hsha commits
  have hpar : ∀ c, (DrawCommitTree.pruneDangling commits c).parents.filter
      (fun p => (DrawCommitTree.commitMap commits p).isSome) =
      c.parents.filter (fun p => (DrawCommitTree.commitMap commits p).isSome) := by
    intro c
    show (c.parents.filter _).filter _ = _
    rw [List.filter_filter]
    apply List.filter_congr
    intro p _
    simp
  have hcols : DrawCommitTree.assignColumns
      (commits.map (DrawCommitTree.pruneDangling commits)) =
      DrawCommitTree.assignColumns commits :=
    DrawCommitTree.assignColumns_map commits _ hsha (fun _ => rfl) hpar
  refine ⟨?_, hcols, ?_⟩
  · intro e he
    exact (DrawCommitTree.edgesGo_mem_inv commits commits _ 0 e he).1
  · unfold DrawCommitTree.edges
    rw [hcols]
    exact DrawCommitTree.edgesGo_map commits _ hcm hsha hpar commits
      (DrawCommitTree.assignColumns commits) 0

/-- C6 witness: in the branch scenario the C4 edge resolves its parent, and
on the window with the dangling parent `gone` pruning the dangling reference
changes neither lanes nor edges. -/
theorem dangling_parent_tolerated_witness :
    (DrawCommitTree.commitMap branchScenario edgeC4C2.toSha).isSome = true ∧
    DrawCommitTree.assignColumns
        (danglingWindow.map (DrawCommitTree.pruneDangling danglingWindow)) =
      DrawCommitTree.assignColumns danglingWindow ∧
    DrawCommitTree.edges
        (danglingWindow.map (DrawCommitTree.pruneDangling danglingWindow)) =
      DrawCommitTree.edges danglingWindow :=
  ⟨(dangling_parent_tolerated branchScenario).1 edgeC4C2 (by decide),
   (dangling_parent_tolerated danglingWindow).2.1,
   (dangling_parent_tolerated danglingWindow).2.2⟩
